import Mathlib

/-!
Verification of the capture-to-network broadcast pipeline of the rs-capture
example servers (`src/examples/server_ws.js` and the WebRTC variant).

Bytes are modelled as `Nat` (every buffer byte lies in `[0, 255]`; the
demuxer logic only compares bytes for equality, so no width reasoning is
needed).  Buffers are `List Nat`.  JavaScript `Buffer.indexOf` with a
two-byte needle is modelled by `indexOfPair`.
-/

namespace RsCapture

/-- Model of `Buffer.indexOf(Buffer.from([a, b]))`: index of the first
occurrence of the two consecutive bytes `a`, `b` in `l`, or `none`. -/
def indexOfPair (a b : Nat) : List Nat → Option Nat
  | [] => none
  | x :: rest =>
    match rest with
    | [] => none
    | y :: _ =>
      if x = a ∧ y = b then some 0
      else (indexOfPair a b rest).map (· + 1)

theorem indexOfPair_nil (a b : Nat) : indexOfPair a b [] = none := rfl

theorem indexOfPair_single (a b x : Nat) : indexOfPair a b [x] = none := rfl

theorem indexOfPair_cons₂ (a b x y : Nat) (t : List Nat) :
    indexOfPair a b (x :: y :: t) =
      if x = a ∧ y = b then some 0 else (indexOfPair a b (y :: t)).map (· + 1) := rfl

/-- A reported occurrence index always leaves room for the two-byte needle. -/
theorem indexOfPair_some_bound {a b : Nat} :
    ∀ {l : List Nat} {i : Nat}, indexOfPair a b l = some i → i + 2 ≤ l.length := by
  intro l
  induction l with
  | nil => intro i h; simp [indexOfPair] at h
  | cons x rest ih =>
    intro i h
    match rest with
    | [] => simp [indexOfPair] at h
    | y :: t =>
      rw [indexOfPair_cons₂] at h
      by_cases hxy : x = a ∧ y = b
      · simp [hxy] at h
        subst h
        simp
      · simp [hxy] at h
        obtain ⟨j, hj, rfl⟩ := h
        have := ih hj
        simp only [List.length_cons] at this ⊢
        omega

/-- No occurrence in `l` means no occurrence in any prefix of `l`. -/
theorem indexOfPair_take_none {a b : Nat} :
    ∀ {l : List Nat}, indexOfPair a b l = none → ∀ n, indexOfPair a b (l.take n) = none := by
  intro l
  induction l with
  | nil => intro _ n; simp [indexOfPair]
  | cons x rest ih =>
    intro h n
    match rest with
    | [] =>
      match n with
      | 0 => rfl
      | 1 => rfl
      | n + 2 => simpa using h
    | y :: t =>
      rw [indexOfPair_cons₂] at h
      by_cases hxy : x = a ∧ y = b
      · simp [hxy] at h
      · simp [hxy] at h
        match n with
        | 0 => rfl
        | n + 1 =>
          have ht : indexOfPair a b ((y :: t).take n) = none := ih h n
          simp only [List.take_succ_cons]
          match hn : (y :: t).take n with
          | [] => rfl
          | z :: r =>
            rw [hn] at ht
            rw [indexOfPair_cons₂]
            have hz : z = y := by
              match n with
              | 0 => simp at hn
              | n + 1 => simp [List.take_succ_cons] at hn; exact hn.1.symm
            subst hz
            simp [hxy, ht]

/-- Appending one byte that cannot complete the needle keeps the search empty. -/
theorem indexOfPair_append_ne {a b c : Nat} (hc : c ≠ b) :
    ∀ {l : List Nat}, indexOfPair a b l = none → indexOfPair a b (l ++ [c]) = none := by
  intro l
  induction l with
  | nil => intro _; rfl
  | cons x rest ih =>
    intro h
    match rest with
    | [] =>
      simp only [List.cons_append, List.nil_append]
      rw [indexOfPair_cons₂]
      have : ¬(x = a ∧ c = b) := fun hh => hc hh.2
      simp [this, indexOfPair_single]
    | y :: t =>
      rw [indexOfPair_cons₂] at h
      by_cases hxy : x = a ∧ y = b
      · simp [hxy] at h
      · simp [hxy] at h
        have := ih h
        simp only [List.cons_append]
        rw [indexOfPair_cons₂]
        simp only [List.cons_append] at this
        simp [hxy, this]

/-- Appending the needle itself to an occurrence-free list puts the first
occurrence exactly at the end of the original list. -/
theorem indexOfPair_append_pair {a b : Nat} (hab : a ≠ b) :
    ∀ {l : List Nat}, indexOfPair a b l = none →
      indexOfPair a b (l ++ [a, b]) = some l.length := by
  intro l
  induction l with
  | nil => intro _; simp [indexOfPair_cons₂]
  | cons x rest ih =>
    intro h
    match rest with
    | [] =>
      simp only [List.cons_append, List.nil_append]
      rw [indexOfPair_cons₂]
      have hxa : ¬(x = a ∧ a = b) := fun hh => hab hh.2
      have : indexOfPair a b [a, b] = some 0 := by simp [indexOfPair_cons₂]
      simp [hxa, this]
    | y :: t =>
      rw [indexOfPair_cons₂] at h
      by_cases hxy : x = a ∧ y = b
      · simp [hxy] at h
      · simp [hxy] at h
        have := ih h
        simp only [List.cons_append] at this ⊢
        rw [indexOfPair_cons₂]
        simp [hxy, this]

/-! ## FrameDemuxer (`tryParse` and the stdout data handler in
`createFfmpegMjpegEncoder`, src/examples/server_ws.js lines 298-323)

The JPEG start marker is `0xFF 0xD8` (255, 216) and the end marker is
`0xFF 0xD9` (255, 217).  `tryParseLoop` mirrors the `while (true)` loop of
`tryParse`; the `fuel` argument only bounds the number of loop iterations
(each emitted frame consumes at least four buffered bytes, so `buf.length`
iterations always suffice, and every branch that the source's loop can take
is reached with positive fuel in the theorems below).  The function returns
the emitted frames in order together with the remaining buffer. -/
def tryParseLoop : Nat → List Nat → List (List Nat) × List Nat
  | 0, buf => ([], buf)
  | fuel + 1, buf =>
    match indexOfPair 255 216 buf with
    | none => ([], if 2 < buf.length then buf.drop (buf.length - 2) else buf)
    | some start =>
      match indexOfPair 255 217 (buf.drop (start + 2)) with
      | none => ([], if 0 < start then buf.drop start else buf)
      | some f =>
        let e := start + 2 + f
        let frame := (buf.take (e + 2)).drop start
        let r := tryParseLoop fuel (buf.drop (e + 2))
        (frame :: r.1, r.2)

/-- One invocation of `tryParse` on the current buffer. -/
def tryParse (buf : List Nat) : List (List Nat) × List Nat :=
  tryParseLoop buf.length buf

/-- The hard buffer ceiling enforced by the stdout data handler. -/
def BUF_CEILING : Nat := 20 * 1024 * 1024

/-- Model of the `proc.stdout.on('data', ...)` handler: append the chunk,
truncate to the final two bytes if the ceiling is exceeded, then scan. -/
def demuxFeed (buf chunk : List Nat) : List (List Nat) × List Nat :=
  let b := buf ++ chunk
  let b2 := if BUF_CEILING < b.length then b.drop (b.length - 2) else b
  tryParse b2

/-- Feed a sequence of chunks, collecting all emitted frames in order. -/
def feedAll (buf : List Nat) : List (List Nat) → List (List Nat) × List Nat
  | [] => ([], buf)
  | c :: cs =>
    let r := demuxFeed buf c
    let r2 := feedAll r.2 cs
    (r.1 ++ r2.1, r2.2)

/-- The marker-inclusive byte sequence `[0xFF, 0xD8] ++ payload ++ [0xFF, 0xD9]`. -/
def jpegSeq (p : List Nat) : List Nat := 255 :: 216 :: (p ++ [255, 217])

theorem jpegSeq_length (p : List Nat) : (jpegSeq p).length = p.length + 4 := by
  simp [jpegSeq]

theorem tryParseLoop_nil (fuel : Nat) : tryParseLoop fuel [] = ([], []) := by
  match fuel with
  | 0 => rfl
  | fuel + 1 => rfl

theorem tryParse_nil : tryParse [] = ([], []) := rfl

/-- Unfolding equation for `tryParseLoop` when no start marker is present. -/
theorem tryParseLoop_succ_none (fuel : Nat) (buf : List Nat)
    (h : indexOfPair 255 216 buf = none) :
    tryParseLoop (fuel + 1) buf =
      ([], if 2 < buf.length then buf.drop (buf.length - 2) else buf) := by
  simp only [tryParseLoop, h]

/-- Unfolding equation for `tryParseLoop` when a start marker is present but
no end marker follows it. -/
theorem tryParseLoop_succ_noEnd (fuel : Nat) (buf : List Nat) (start : Nat)
    (hs : indexOfPair 255 216 buf = some start)
    (he : indexOfPair 255 217 (buf.drop (start + 2)) = none) :
    tryParseLoop (fuel + 1) buf =
      ([], if 0 < start then buf.drop start else buf) := by
  simp only [tryParseLoop, hs, he]

/-- Unfolding equation for `tryParseLoop` when a complete frame is present. -/
theorem tryParseLoop_succ_emit (fuel : Nat) (buf : List Nat) (start f : Nat)
    (hs : indexOfPair 255 216 buf = some start)
    (he : indexOfPair 255 217 (buf.drop (start + 2)) = some f) :
    tryParseLoop (fuel + 1) buf =
      ((buf.take (start + 2 + f + 2)).drop start
          :: (tryParseLoop fuel (buf.drop (start + 2 + f + 2))).1,
        (tryParseLoop fuel (buf.drop (start + 2 + f + 2))).2) := by
  simp only [tryParseLoop, hs, he]

/-- Behavior of `tryParse` on a buffer with no start marker. -/
theorem tryParse_eq_of_no_start (buf : List Nat)
    (h : indexOfPair 255 216 buf = none) :
    tryParse buf = ([], if 2 < buf.length then buf.drop (buf.length - 2) else buf) := by
  match buf with
  | [] => simp [tryParse_nil]
  | x :: t => exact tryParseLoop_succ_none t.length (x :: t) h

/-- C5 (amended): when the scanner finds no two-byte start marker, it emits
no frame, retains at most the final **two** buffered bytes, and the retained
bytes are a suffix of the buffer (all preceding bytes are discarded). -/
theorem tryParse_no_start_marker (buf : List Nat)
    (h : indexOfPair 255 216 buf = none) :
    (tryParse buf).1 = [] ∧ (tryParse buf).2.length ≤ 2 ∧
      (tryParse buf).2 <:+ buf := by
  rw [tryParse_eq_of_no_start buf h]
  by_cases hl : 2 < buf.length
  · rw [if_pos hl]
    exact ⟨rfl, by simp only [List.length_drop]; omega, List.drop_suffix _ _⟩
  · rw [if_neg hl]
    exact ⟨rfl, by show buf.length ≤ 2; omega, List.suffix_refl _⟩

/-- C5 counterexample to the claim as stated: on the buffer `[0, 1, 2]`
(no start marker present) the code retains the final **two** bytes
`[1, 2]`, so it does not retain "at most the final buffered byte", and the
byte `1`, which precedes the final byte, is not discarded. -/
theorem tryParse_retains_two_bytes :
    indexOfPair 255 216 [0, 1, 2] = none ∧
      tryParse [0, 1, 2] = ([], [1, 2]) ∧
      ¬ (tryParse [0, 1, 2]).2.length ≤ 1 ∧
      1 ∈ (tryParse [0, 1, 2]).2 := by
  refine ⟨rfl, rfl, ?_, ?_⟩ <;> decide

/-- C5 witness: the amended statement evaluated on the concrete buffer
`[0, 1, 2]`. -/
theorem tryParse_no_start_marker_witness :
    (tryParse [0, 1, 2]).1 = [] ∧ (tryParse [0, 1, 2]).2.length ≤ 2 ∧
      (tryParse [0, 1, 2]).2 <:+ [0, 1, 2] :=
  tryParse_no_start_marker [0, 1, 2] rfl

/-! ### C1: one complete marker-delimited frame, arbitrary chunking -/

theorem jpegSeq_take_lt (p : List Nat)
    (hp9 : indexOfPair 255 217 p = none)
    (m : Nat) (hm : m < (jpegSeq p).length) :
    tryParse ((jpegSeq p).take m) = ([], (jpegSeq p).take m) := by
  match m with
  | 0 => simp [tryParse_nil]
  | 1 =>
    have h1 : (jpegSeq p).take 1 = [255] := by simp [jpegSeq]
    rw [h1]
    rfl
  | k + 2 =>
    rw [jpegSeq_length] at hm
    have hk : k ≤ p.length + 1 := by omega
    have htake : (jpegSeq p).take (k + 2)
        = 255 :: 216 :: (p ++ [255, 217]).take k := by
      simp [jpegSeq]
    rw [htake]
    have hstart : indexOfPair 255 216 (255 :: 216 :: (p ++ [255, 217]).take k)
        = some 0 := by
      rw [indexOfPair_cons₂]
      simp
    have hend : indexOfPair 255 217 ((p ++ [255, 217]).take k) = none := by
      rcases Nat.lt_or_ge k (p.length + 1) with hlt | hge
      · have : k ≤ p.length := by omega
        rw [List.take_append_of_le_length this]
        exact indexOfPair_take_none hp9 k
      · have hkeq : k = p.length + 1 := by omega
        subst hkeq
        have : (p ++ [255, 217]).take (p.length + 1) = p ++ [255] := by
          rw [List.take_append]
          rfl
        rw [this]
        exact indexOfPair_append_ne (by decide) hp9
    have hend' : indexOfPair 255 217
        ((255 :: 216 :: (p ++ [255, 217]).take k).drop (0 + 2)) = none := by
      simpa using hend
    have hlen : ((p ++ [255, 217]).take k).length = k := by
      simp only [List.length_take, List.length_append, List.length_cons,
        List.length_nil]
      omega
    have hT : tryParse (255 :: 216 :: (p ++ [255, 217]).take k)
        = tryParseLoop (((p ++ [255, 217]).take k).length + 1 + 1)
            (255 :: 216 :: (p ++ [255, 217]).take k) := rfl
    rw [hT, hlen]
    have h2 := tryParseLoop_succ_noEnd (k + 1)
      (255 :: 216 :: (p ++ [255, 217]).take k) 0 hstart hend'
    simpa using h2

theorem tryParse_full (p : List Nat)
    (hp9 : indexOfPair 255 217 p = none) :
    tryParse (jpegSeq p) = ([jpegSeq p], []) := by
  have hlen : (jpegSeq p).length = p.length + 4 := jpegSeq_length p
  have hstart : indexOfPair 255 216 (jpegSeq p) = some 0 := by
    show indexOfPair 255 216 (255 :: 216 :: (p ++ [255, 217])) = some 0
    rw [indexOfPair_cons₂]
    simp
  have hend : indexOfPair 255 217 ((jpegSeq p).drop (0 + 2)) = some p.length :=
    indexOfPair_append_pair (by decide) hp9
  have h1 := tryParseLoop_succ_emit (p.length + 3) (jpegSeq p) 0 p.length hstart hend
  have harith : 0 + 2 + p.length + 2 = (jpegSeq p).length := by rw [hlen]; omega
  rw [harith, List.take_length, List.drop_length, List.drop_zero,
    tryParseLoop_nil] at h1
  have hfuel : (jpegSeq p).length = p.length + 3 + 1 := by rw [hlen]
  show tryParseLoop ((jpegSeq p).length) (jpegSeq p) = _
  rw [hfuel, h1]

theorem feedAll_cons (buf c : List Nat) (cs : List (List Nat)) :
    feedAll buf (c :: cs)
      = ((demuxFeed buf c).1 ++ (feedAll (demuxFeed buf c).2 cs).1,
        (feedAll (demuxFeed buf c).2 cs).2) := rfl

theorem demuxFeed_no_ceiling (buf c : List Nat)
    (h : ¬ BUF_CEILING < (buf ++ c).length) :
    demuxFeed buf c = tryParse (buf ++ c) := by
  simp only [demuxFeed, if_neg h]

theorem demuxFeed_ceiling (buf c : List Nat)
    (h : BUF_CEILING < (buf ++ c).length) :
    demuxFeed buf c = tryParse ((buf ++ c).drop ((buf ++ c).length - 2)) := by
  simp only [demuxFeed, if_pos h]

theorem feedAll_empty_chunks :
    ∀ cs : List (List Nat), cs.flatten = [] → feedAll [] cs = ([], []) := by
  intro cs
  induction cs with
  | nil => intro _; rfl
  | cons c cs ih =>
    intro h
    simp only [List.flatten_cons, List.append_eq_nil] at h
    obtain ⟨rfl, hcs⟩ := h
    rw [feedAll_cons]
    have hd : demuxFeed [] ([] : List Nat) = ([], []) := rfl
    rw [hd, ih hcs]
    rfl

theorem feedAll_from_prefix (p : List Nat)
    (hp9 : indexOfPair 255 217 p = none)
    (hcap : (jpegSeq p).length ≤ BUF_CEILING) :
    ∀ (chunks : List (List Nat)) (n : Nat), n < (jpegSeq p).length →
      chunks.flatten = (jpegSeq p).drop n →
      feedAll ((jpegSeq p).take n) chunks = ([jpegSeq p], []) := by
  intro chunks
  induction chunks with
  | nil =>
    intro n hn hflat
    exfalso
    simp only [List.flatten_nil] at hflat
    have := congrArg List.length hflat.symm
    simp only [List.length_drop, List.length_nil] at this
    omega
  | cons c cs ih =>
    intro n hn hflat
    simp only [List.flatten_cons] at hflat
    have hS : (jpegSeq p).take n ++ (c ++ cs.flatten) = jpegSeq p := by
      rw [hflat]
      exact List.take_append_drop n _
    have htaken : ((jpegSeq p).take n).length = n := by
      simp only [List.length_take]
      omega
    have hm_le : n + c.length ≤ (jpegSeq p).length := by
      have := congrArg List.length hS
      simp only [List.length_append, htaken] at this
      omega
    have h1 : ((jpegSeq p).take n ++ c).length = n + c.length := by
      simp [List.length_append, htaken]
    have htakem : (jpegSeq p).take (n + c.length) = (jpegSeq p).take n ++ c := by
      calc (jpegSeq p).take (n + c.length)
          = (((jpegSeq p).take n ++ c) ++ cs.flatten).take (n + c.length) := by
            rw [List.append_assoc, hS]
        _ = (jpegSeq p).take n ++ c := by
            rw [← h1, List.take_left]
    have hnoceil : ¬ BUF_CEILING < ((jpegSeq p).take n ++ c).length := by
      rw [h1]
      omega
    rw [feedAll_cons, demuxFeed_no_ceiling _ _ hnoceil, ← htakem]
    rcases Nat.lt_or_ge (n + c.length) ((jpegSeq p).length) with hlt | hge
    · -- still a proper prefix: nothing emitted, buffer keeps the prefix
      rw [jpegSeq_take_lt p hp9 (n + c.length) hlt]
      have hrest : cs.flatten = (jpegSeq p).drop (n + c.length) := by
        have : (jpegSeq p).drop (n + c.length)
            = (((jpegSeq p).take n ++ c) ++ cs.flatten).drop (n + c.length) := by
          rw [List.append_assoc, hS]
        rw [this, ← h1, List.drop_left]
      have := ih (n + c.length) hlt hrest
      simpa using this
    · -- the buffer now holds the complete sequence: emit it
      have hmeq : n + c.length = (jpegSeq p).length := Nat.le_antisymm hm_le hge
      rw [hmeq, List.take_length, tryParse_full p hp9]
      have hflatnil : cs.flatten = [] := by
        have hlen := congrArg List.length hS
        simp only [List.length_append, htaken] at hlen
        have : cs.flatten.length = 0 := by omega
        exact List.eq_nil_of_length_eq_zero this
      rw [feedAll_empty_chunks cs hflatnil]
      rfl

/-- C1 (amended): feeding the byte sequence `[0xFF,0xD8] ++ payload ++
[0xFF,0xD9]` (payload free of both two-byte markers) to the demuxer in any
chunk partition — including splits inside the markers — emits exactly the one
marker-inclusive frame and leaves an empty buffer, **provided** the total
sequence length does not exceed the 20 MiB hard buffer ceiling enforced by
the stdout data handler. -/
theorem demuxer_emits_single_frame (p : List Nat) (chunks : List (List Nat))
    (hp8 : indexOfPair 255 216 p = none)
    (hp9 : indexOfPair 255 217 p = none)
    (hsplit : chunks.flatten = jpegSeq p)
    (hcap : (jpegSeq p).length ≤ BUF_CEILING) :
    feedAll [] chunks = ([jpegSeq p], []) := by
  have h0 : (0 : Nat) < (jpegSeq p).length := by
    rw [jpegSeq_length]
    omega
  have := feedAll_from_prefix p hp9 hcap chunks 0 h0 (by simpa using hsplit)
  simpa using this

/-- C1 witness: the amended theorem applied to payload `[0]` with the chunk
partition `[[255], [216, 0, 255], [217]]`, which splits both two-byte
markers across chunk boundaries. -/
theorem demuxer_emits_single_frame_witness :
    feedAll [] [[255], [216, 0, 255], [217]] = ([[255, 216, 0, 255, 217]], []) :=
  demuxer_emits_single_frame [0] [[255], [216, 0, 255], [217]]
    rfl rfl (by decide) (by decide)

/-- A payload one byte past the hard buffer ceiling (total sequence length
`20*1024*1024 + 1`). -/
def bigPayload : List Nat := List.replicate 20971517 0

theorem indexOfPair_replicate_zero (b : Nat) :
    ∀ n, indexOfPair 255 b (List.replicate n (0 : Nat)) = none := by
  intro n
  induction n with
  | zero => rfl
  | succ m ih =>
    cases m with
    | zero => rfl
    | succ m' =>
      have h2 : List.replicate (m' + 1 + 1) (0 : Nat)
          = 0 :: 0 :: List.replicate m' 0 := by
        simp [List.replicate_succ]
      rw [h2, indexOfPair_cons₂,
        if_neg (fun hh => absurd hh.1 (by decide)),
        ← List.replicate_succ, ih]
      rfl

/-- C1 counterexample to the claim as stated (no size bound): delivering the
whole `20*1024*1024 + 1`-byte marker-delimited sequence as a single chunk
trips the hard buffer ceiling, the buffer is truncated to its final two
bytes, and **zero** frames are emitted instead of exactly one. -/
theorem demuxer_ceiling_counterexample :
    indexOfPair 255 216 bigPayload = none ∧
      indexOfPair 255 217 bigPayload = none ∧
      [jpegSeq bigPayload].flatten = jpegSeq bigPayload ∧
      (feedAll [] [jpegSeq bigPayload]).1 = [] := by
  refine ⟨indexOfPair_replicate_zero 216 _, indexOfPair_replicate_zero 217 _,
    by rw [List.flatten_cons, List.flatten_nil, List.append_nil], ?_⟩
  have hplen : bigPayload.length = 20971517 := by
    rw [bigPayload]
    exact List.length_replicate _ _
  have hlenS : (jpegSeq bigPayload).length = 20971521 := by
    rw [jpegSeq_length, hplen]
  have hdrop : (jpegSeq bigPayload).drop 20971519 = [255, 217] := by
    show ((255 : Nat) :: 216 :: (List.replicate 20971517 0 ++ [255, 217])).drop
        20971519 = [255, 217]
    rw [show (20971519 : Nat) = 20971517 + 1 + 1 by norm_num]
    rw [List.drop_succ_cons, List.drop_succ_cons]
    exact List.drop_left' (List.length_replicate _ _)
  have hceil : BUF_CEILING < (([] : List Nat) ++ jpegSeq bigPayload).length := by
    rw [List.nil_append, hlenS]
    norm_num [BUF_CEILING]
  have hfeed : demuxFeed [] (jpegSeq bigPayload) = ([], [255, 217]) := by
    rw [demuxFeed_ceiling [] _ hceil, List.nil_append, hlenS]
    rw [show (20971521 : Nat) - 2 = 20971519 by norm_num, hdrop]
    rfl
  rw [feedAll_cons, hfeed]
  rfl

/-! ## `qualityToQscale` (src/examples/server_ws.js lines 277-280)

JavaScript numbers are modelled as exact rationals plus a distinguished
non-finite value (covering `NaN` and the infinities, on which
`Number.isFinite` is `false`).  `Math.round` rounds half towards positive
infinity, i.e. `⌊x + 1/2⌋`. -/

inductive JsNumber where
  | finite (x : ℚ)
  | nonfinite

/-- JavaScript `Math.round` on a finite number. -/
def mathRound (x : ℚ) : ℤ := ⌊x + 1 / 2⌋

/-- Model of `qualityToQscale(quality)`:
`Math.max(2, Math.min(31, Number.isFinite(q) ? Math.round(31 - (q/100)*29) : 8))`. -/
def qualityToQscale (quality : JsNumber) : ℤ :=
  let q : ℤ :=
    match quality with
    | .finite x => mathRound (31 - x / 100 * 29)
    | .nonfinite => 8
  max 2 (min 31 q)

/-- C10: the qscale mapping always lands in `[2, 31]`, maps any non-finite
quality to `8`, and is monotonically non-increasing in the quality value. -/
theorem qualityToQscale_spec :
    (∀ v : JsNumber, 2 ≤ qualityToQscale v ∧ qualityToQscale v ≤ 31) ∧
      qualityToQscale .nonfinite = 8 ∧
      (∀ x y : ℚ, x ≤ y →
        qualityToQscale (.finite y) ≤ qualityToQscale (.finite x)) := by
  refine ⟨?_, ?_, ?_⟩
  · intro v
    constructor
    · exact le_max_left _ _
    · exact max_le (by norm_num) (min_le_left _ _)
  · decide
  · intro x y hxy
    have hr : mathRound (31 - y / 100 * 29) ≤ mathRound (31 - x / 100 * 29) := by
      apply Int.floor_le_floor
      linarith
    exact max_le_max (le_refl 2) (min_le_min (le_refl 31) hr)

/-- C10 witness: concrete evaluations via the theorem (quality 60 and 80). -/
theorem qualityToQscale_spec_witness :
    (2 ≤ qualityToQscale (.finite 60) ∧ qualityToQscale (.finite 60) ≤ 31) ∧
      qualityToQscale (.finite 80) ≤ qualityToQscale (.finite 60) :=
  ⟨qualityToQscale_spec.1 _, qualityToQscale_spec.2.2 60 80 (by norm_num)⟩

/-! ## `rgbaToI420` (WebRTC server, src/unnamed/part_001 lines 146-181)

Pixel bytes are read from the RGBA buffer (modelled as a total lookup
`ℕ → ℤ`, each value in `[0, 255]`).  JavaScript `x >> 8` on the in-range
32-bit values produced here is an arithmetic shift, i.e. floor division by
256 (`Int.fdiv`); a store into a `Uint8Array` takes the value modulo 256
(`Int.emod`).  The planes are produced in the exact write order of the
nested row/column loop. -/

/-- JavaScript `x >> 8` for values within 32-bit range. -/
def jsShr8 (x : ℤ) : ℤ := Int.fdiv x 256

/-- JavaScript `Uint8Array` element store (`ToUint8`). -/
def toUint8 (x : ℤ) : ℤ := Int.emod x 256

/-- Luma write `yPlane[yIdx++] = (r * 77 + g * 150 + b * 29) >> 8` at pixel `(row, col)`. -/
def yByte (rgba : ℕ → ℤ) (w row col : ℕ) : ℤ :=
  let p := row * w * 4 + col * 4
  toUint8 (jsShr8 (rgba p * 77 + rgba (p + 1) * 150 + rgba (p + 2) * 29))

/-- Chroma write `uPlane[uvIdx] = ((-r * 43 - g * 84 + b * 127) >> 8) + 128`. -/
def uByte (rgba : ℕ → ℤ) (w row col : ℕ) : ℤ :=
  let p := row * w * 4 + col * 4
  toUint8 (jsShr8 (-rgba p * 43 - rgba (p + 1) * 84 + rgba (p + 2) * 127) + 128)

/-- Chroma write `vPlane[uvIdx] = ((r * 127 - g * 106 - b * 21) >> 8) + 128`. -/
def vByte (rgba : ℕ → ℤ) (w row col : ℕ) : ℤ :=
  let p := row * w * 4 + col * 4
  toUint8 (jsShr8 (rgba p * 127 - rgba (p + 1) * 106 - rgba (p + 2) * 21) + 128)

/-- The luma plane, in the loop's sequential write order. -/
def yPlane (rgba : ℕ → ℤ) (w h : ℕ) : List ℤ :=
  (List.range h).flatMap fun row =>
    (List.range w).map fun col => yByte rgba w row col

/-- The U chroma plane: written only when `(row & 1) === 0` and
`(col & 1) === 0`, in loop order. -/
def uPlane (rgba : ℕ → ℤ) (w h : ℕ) : List ℤ :=
  (List.range h).flatMap fun row =>
    if row % 2 = 0 then
      (List.range w).filterMap fun col =>
        if col % 2 = 0 then some (uByte rgba w row col) else none
    else []

/-- The V chroma plane, written in lockstep with the U plane. -/
def vPlane (rgba : ℕ → ℤ) (w h : ℕ) : List ℤ :=
  (List.range h).flatMap fun row =>
    if row % 2 = 0 then
      (List.range w).filterMap fun col =>
        if col % 2 = 0 then some (vByte rgba w row col) else none
    else []

/-- The full I420 output: `ySize` luma bytes followed by the two chroma
planes of `uvSize = (w >> 1) * (h >> 1)` bytes each. -/
def rgbaToI420 (w h : ℕ) (rgba : ℕ → ℤ) : List ℤ :=
  yPlane rgba w h ++ uPlane rgba w h ++ vPlane rgba w h

/-- A uniform neutral-gray RGBA buffer: every byte is 128. -/
def gray128 : ℕ → ℤ := fun _ => 128

theorem yByte_gray (w row col : ℕ) : yByte gray128 w row col = 128 := rfl

theorem uByte_gray (w row col : ℕ) : uByte gray128 w row col = 128 := rfl

theorem vByte_gray (w row col : ℕ) : vByte gray128 w row col = 128 := rfl

theorem evenCols_length (g : ℕ → ℤ) :
    ∀ w, ((List.range w).filterMap
        (fun col => if col % 2 = 0 then some (g col) else none)).length
      = (w + 1) / 2 := by
  intro w
  induction w with
  | zero => rfl
  | succ w ih =>
    rw [List.range_succ, List.filterMap_append, List.length_append, ih]
    by_cases hw : w % 2 = 0
    · simp only [List.filterMap_cons, hw, if_pos, List.filterMap_nil]
      simp only [List.length_cons, List.length_nil]
      omega
    · simp only [List.filterMap_cons, hw, if_neg, not_false_iff,
        List.filterMap_nil, List.length_nil]
      omega

theorem evenRows_length (f : ℕ → List ℤ) (c : ℕ)
    (hf : ∀ row, (f row).length = c) :
    ∀ h, ((List.range h).flatMap
        (fun row => if row % 2 = 0 then f row else [])).length
      = ((h + 1) / 2) * c := by
  intro h
  induction h with
  | zero => simp
  | succ h ih =>
    rw [List.range_succ, List.flatMap_append, List.length_append, ih]
    by_cases hh : h % 2 = 0
    · have h1 : (h + 1 + 1) / 2 = (h + 1) / 2 + 1 := by omega
      simp only [List.flatMap_cons, hh, if_pos, List.flatMap_nil,
        List.append_nil, hf]
      rw [h1, Nat.add_mul, one_mul]
    · have h1 : (h + 1 + 1) / 2 = (h + 1) / 2 := by omega
      simp only [List.flatMap_cons, hh, if_neg, not_false_iff,
        List.flatMap_nil, List.append_nil, List.length_nil]
      rw [h1]
      omega

/-- C8: on a uniform R=G=B=128 input with even width and height, every luma
byte is exactly 128 and every byte of both chroma planes is exactly 128
(no color cast on neutral gray), and the planes have the expected
`w*h` and `(w/2)*(h/2)` sizes. -/
theorem rgbaToI420_neutral_gray (w h : ℕ) (hw : w % 2 = 0) (hh : h % 2 = 0) :
    (∀ x ∈ yPlane gray128 w h, x = 128) ∧
      (∀ x ∈ uPlane gray128 w h, x = 128) ∧
      (∀ x ∈ vPlane gray128 w h, x = 128) ∧
      (yPlane gray128 w h).length = w * h ∧
      (uPlane gray128 w h).length = (w / 2) * (h / 2) ∧
      (vPlane gray128 w h).length = (w / 2) * (h / 2) := by
  have hu : ∀ row, ((List.range w).filterMap
      (fun col => if col % 2 = 0 then some (uByte gray128 w row col) else none)).length
      = (w + 1) / 2 := fun row => evenCols_length _ w
  have hv : ∀ row, ((List.range w).filterMap
      (fun col => if col % 2 = 0 then some (vByte gray128 w row col) else none)).length
      = (w + 1) / 2 := fun row => evenCols_length _ w
  refine ⟨?_, ?_, ?_, ?_, ?_, ?_⟩
  · intro x hx
    simp only [yPlane, List.mem_flatMap, List.mem_map, List.mem_range] at hx
    obtain ⟨row, _, col, _, rfl⟩ := hx
    exact yByte_gray w row col
  · intro x hx
    simp only [uPlane, List.mem_flatMap, List.mem_range] at hx
    obtain ⟨row, _, hmem⟩ := hx
    by_cases hrow : row % 2 = 0
    · rw [if_pos hrow] at hmem
      simp only [List.mem_filterMap, List.mem_range] at hmem
      obtain ⟨col, _, hcol⟩ := hmem
      by_cases hc : col % 2 = 0
      · rw [if_pos hc, Option.some_inj] at hcol
        rw [← hcol]
        exact uByte_gray w row col
      · rw [if_neg hc] at hcol
        exact absurd hcol (Option.noConfusion)
    · rw [if_neg hrow] at hmem
      exact absurd hmem (List.not_mem_nil x)
  · intro x hx
    simp only [vPlane, List.mem_flatMap, List.mem_range] at hx
    obtain ⟨row, _, hmem⟩ := hx
    by_cases hrow : row % 2 = 0
    · rw [if_pos hrow] at hmem
      simp only [List.mem_filterMap, List.mem_range] at hmem
      obtain ⟨col, _, hcol⟩ := hmem
      by_cases hc : col % 2 = 0
      · rw [if_pos hc, Option.some_inj] at hcol
        rw [← hcol]
        exact vByte_gray w row col
      · rw [if_neg hc] at hcol
        exact absurd hcol (Option.noConfusion)
    · rw [if_neg hrow] at hmem
      exact absurd hmem (List.not_mem_nil x)
  · simp only [yPlane, List.length_flatMap, List.map_map]
    have : ((List.range h).map
        (List.length ∘ fun row => (List.range w).map fun col =>
          yByte gray128 w row col)) = (List.range h).map (fun _ => w) := by
      apply List.map_congr_left
      intro a _
      simp
    rw [this, List.map_const', List.sum_replicate, List.length_range,
      smul_eq_mul]
    ring
  · have := evenRows_length
      (fun row => (List.range w).filterMap
        (fun col => if col % 2 = 0 then some (uByte gray128 w row col) else none))
      ((w + 1) / 2) hu h
    rw [uPlane, this]
    have h1 : (h + 1) / 2 = h / 2 := by omega
    have h2 : (w + 1) / 2 = w / 2 := by omega
    rw [h1, h2, Nat.mul_comm]
  · have := evenRows_length
      (fun row => (List.range w).filterMap
        (fun col => if col % 2 = 0 then some (vByte gray128 w row col) else none))
      ((w + 1) / 2) hv h
    rw [vPlane, this]
    have h1 : (h + 1) / 2 = h / 2 := by omega
    have h2 : (w + 1) / 2 = w / 2 := by omega
    rw [h1, h2, Nat.mul_comm]

/-- C8 witness: the neutral-gray theorem applied at width 2, height 2,
together with concrete evaluation of the three planes. -/
theorem rgbaToI420_neutral_gray_witness :
    (∀ x ∈ yPlane gray128 2 2, x = 128) ∧
      (∀ x ∈ uPlane gray128 2 2, x = 128) ∧
      (yPlane gray128 2 2).length = 4 ∧
      (uPlane gray128 2 2).length = 1 ∧
      (vPlane gray128 2 2).length = 1 :=
  ⟨(rgbaToI420_neutral_gray 2 2 rfl rfl).1,
    (rgbaToI420_neutral_gray 2 2 rfl rfl).2.1,
    (rgbaToI420_neutral_gray 2 2 rfl rfl).2.2.2.1,
    (rgbaToI420_neutral_gray 2 2 rfl rfl).2.2.2.2.1,
    (rgbaToI420_neutral_gray 2 2 rfl rfl).2.2.2.2.2⟩

/-! ## Encoder lifecycle (ffmpeg branch of the capture callback,
src/examples/server_ws.js lines 376-407)

State: the live `EncoderInstance` with its configured `(encoderW, encoderH)`
(`none` after `stopEncoder`), plus the `encoderBackpressure` flag.  Each
raw frame drives one step; the result of `encoder.writeFrame` (`true`,
`false`, or `null`) is an external input.  The step emits an event trace
recording every `close` of an instance and every creation of a new one,
in program order. -/

structure Frame where
  width : Nat
  height : Nat

inductive WriteResult where
  | accepted      -- proc.stdin.write returned true
  | backpressured -- returned false
  | closed        -- returned null (encoder closed or stdin destroyed)

inductive EncEvent where
  | close
  | create
deriving DecidableEq

structure EncState where
  enc : Option (Nat × Nat)
  backpressure : Bool
deriving DecidableEq

/-- One capture callback on the ffmpeg path (clients nonempty): rebuild the
encoder when absent or when the frame resolution differs from the configured
one (closing the previous instance first), then attempt the write. -/
def encStep (s : EncState) (f : Frame) (wr : WriteResult) :
    EncState × List EncEvent :=
  let rebuilt : EncState × List EncEvent :=
    match s.enc with
    | none => (⟨some (f.width, f.height), s.backpressure⟩, [EncEvent.create])
    | some (w, h) =>
      if w = f.width ∧ h = f.height then (s, [])
      else (⟨some (f.width, f.height), false⟩, [EncEvent.close, EncEvent.create])
  let s1 := rebuilt.1
  if s1.backpressure = false then
    match wr with
    | .accepted => rebuilt
    | .backpressured => (⟨s1.enc, true⟩, rebuilt.2)
    | .closed => (⟨none, false⟩, rebuilt.2 ++ [EncEvent.close])
  else rebuilt

/-- Run the capture callback over a sequence of frames with their external
write results, concatenating the event traces. -/
def runEnc (s : EncState) : List (Frame × WriteResult) → EncState × List EncEvent
  | [] => (s, [])
  | (f, wr) :: rest =>
    let r := encStep s f wr
    let r2 := runEnc r.1 rest
    (r2.1, r.2 ++ r2.2)

/-- Trace validity: the boolean tracks whether an instance is currently
alive; `create` is legal only when none is alive and `close` only when one
is.  A valid trace therefore never has two live instances and every
replacement is preceded by a close. -/
def encTraceOk : Bool → List EncEvent → Bool
  | _, [] => true
  | false, .create :: t => encTraceOk true t
  | true, .close :: t => encTraceOk false t
  | _, _ => false

/-- Aliveness flag after a trace. -/
def encAfter : Bool → List EncEvent → Bool
  | b, [] => b
  | _, .create :: t => encAfter true t
  | _, .close :: t => encAfter false t

theorem encTraceOk_append (t1 : List EncEvent) :
    ∀ (b : Bool) (t2 : List EncEvent),
      encTraceOk b (t1 ++ t2) = true ↔
        (encTraceOk b t1 = true ∧ encTraceOk (encAfter b t1) t2 = true) := by
  induction t1 with
  | nil => intro b t2; simp [encTraceOk, encAfter]
  | cons e t ih =>
    intro b t2
    cases b <;> cases e
    · simp [encTraceOk]
    · simp only [List.cons_append, encTraceOk, encAfter]
      exact ih true t2
    · simp only [List.cons_append, encTraceOk, encAfter]
      exact ih false t2
    · simp [encTraceOk]

theorem encStep_trace_ok (s : EncState) (f : Frame) (wr : WriteResult) :
    encTraceOk s.enc.isSome (encStep s f wr).2 = true ∧
      encAfter s.enc.isSome (encStep s f wr).2 = (encStep s f wr).1.enc.isSome := by
  match s with
  | ⟨none, bp⟩ =>
    cases wr <;> cases bp <;> simp [encStep, encTraceOk, encAfter]
  | ⟨some (w, h), bp⟩ =>
    by_cases hwh : w = f.width ∧ h = f.height <;>
      cases wr <;> cases bp <;>
        simp [encStep, hwh, encTraceOk, encAfter]

theorem runEnc_trace_ok (inputs : List (Frame × WriteResult)) :
    ∀ s : EncState, encTraceOk s.enc.isSome (runEnc s inputs).2 = true := by
  induction inputs with
  | nil =>
    intro s
    rw [show runEnc s [] = (s, []) from rfl]
    cases s.enc.isSome <;> rfl
  | cons fw rest ih =>
    intro s
    obtain ⟨f, wr⟩ := fw
    have hstep := encStep_trace_ok s f wr
    show encTraceOk s.enc.isSome ((encStep s f wr).2 ++ (runEnc (encStep s f wr).1 rest).2) = true
    rw [encTraceOk_append]
    exact ⟨hstep.1, by rw [hstep.2]; exact ih (encStep s f wr).1⟩

/-- C2: (a) over any run that starts with no encoder, the event trace is
valid — at most one `EncoderInstance` is alive at any point, and every
replacement instance is created only after the previous one was closed;
(b) when an instance configured at `(w, h)` is alive, a step on a frame
creates a new instance iff the frame's resolution differs from `(w, h)`. -/
theorem encoder_rebuild_spec :
    (∀ inputs : List (Frame × WriteResult),
        encTraceOk false (runEnc ⟨none, false⟩ inputs).2 = true) ∧
      (∀ (s : EncState) (f : Frame) (wr : WriteResult) (w h : Nat),
        s.enc = some (w, h) →
          (EncEvent.create ∈ (encStep s f wr).2 ↔
            ¬(w = f.width ∧ h = f.height))) := by
  constructor
  · intro inputs
    exact runEnc_trace_ok inputs ⟨none, false⟩
  · intro s f wr w h hs
    obtain ⟨enc, bp⟩ := s
    simp only at hs
    subst hs
    by_cases hwh : w = f.width ∧ h = f.height <;>
      cases wr <;> cases bp <;>
        simp [encStep, hwh]

/-- C2 witness: a run with a resolution change (valid trace), and both
directions of the rebuild-iff at a live instance. -/
theorem encoder_rebuild_spec_witness :
    encTraceOk false
        (runEnc ⟨none, false⟩
          [(⟨100, 50⟩, .accepted), (⟨200, 80⟩, .accepted)]).2 = true ∧
      (EncEvent.create ∈ (encStep ⟨some (100, 50), false⟩ ⟨200, 80⟩ .accepted).2 ↔
        ¬(100 = 200 ∧ 50 = 80)) ∧
      (EncEvent.create ∈ (encStep ⟨some (100, 50), false⟩ ⟨100, 50⟩ .accepted).2 ↔
        ¬(100 = 100 ∧ 50 = 50)) :=
  ⟨encoder_rebuild_spec.1 _,
    encoder_rebuild_spec.2 ⟨some (100, 50), false⟩ ⟨200, 80⟩ .accepted 100 50 rfl,
    encoder_rebuild_spec.2 ⟨some (100, 50), false⟩ ⟨100, 50⟩ .accepted 100 50 rfl⟩

/-! ## CaptureSessionController (`attachClient` / `detachClient` /
`stopSharedCapture` / `stopEncoder` and the capture-start failure handler,
src/examples/server_ws.js lines 241-275 and 457-472)

Clients are identified by naturals; the client set is a `Finset`.  The
capture flag models the module-level `capture` variable (non-null iff
`true`); the encoder state mirrors `encoder`/`encoderW`/`encoderH`/
`encoderBackpressure`.  `CtrlEvent` records each start and stop of the
capture source. -/

structure CtrlState where
  clients : Finset Nat
  capture : Bool
  enc : Option (Nat × Nat)
  backpressure : Bool
deriving DecidableEq

inductive CtrlEvent where
  | startCapture
  | stopCapture
deriving DecidableEq

def ctrlInit : CtrlState := ⟨∅, false, none, false⟩

/-- Model of `stopEncoder()`: early-returns when no encoder exists, otherwise closes
it and resets the resolution and backpressure flag. -/
def ctrlStopEncoder (s : CtrlState) : CtrlState :=
  match s.enc with
  | none => s
  | some _ => { s with enc := none, backpressure := false }

/-- Model of `stopSharedCapture()`: early-returns when no capture exists, otherwise
stops it and tears down the encoder. -/
def stopSharedCapture (s : CtrlState) : CtrlState × List CtrlEvent :=
  if s.capture = false then (s, [])
  else (ctrlStopEncoder { s with capture := false }, [CtrlEvent.stopCapture])

/-- Model of `attachClient(ws)`: add to the client set; start the shared capture if
none is running. -/
def attachClient (c : Nat) (s : CtrlState) : CtrlState × List CtrlEvent :=
  let s1 := { s with clients := insert c s.clients }
  if s1.capture = false then ({ s1 with capture := true }, [CtrlEvent.startCapture])
  else (s1, [])

/-- Model of `detachClient(ws)`: remove from the client set; stop the shared capture
when the set becomes empty. -/
def detachClient (c : Nat) (s : CtrlState) : CtrlState × List CtrlEvent :=
  let s1 := { s with clients := s.clients.erase c }
  if s1.clients = ∅ then stopSharedCapture s1 else (s1, [])

theorem ctrlStopEncoder_enc (s : CtrlState) : (ctrlStopEncoder s).enc = none := by
  unfold ctrlStopEncoder
  match s with
  | ⟨cl, cap, none, bp⟩ => rfl
  | ⟨cl, cap, some e, bp⟩ => rfl

theorem ctrlStopEncoder_clients (s : CtrlState) :
    (ctrlStopEncoder s).clients = s.clients := by
  unfold ctrlStopEncoder
  match s with
  | ⟨cl, cap, none, bp⟩ => rfl
  | ⟨cl, cap, some e, bp⟩ => rfl

theorem ctrlStopEncoder_capture (s : CtrlState) :
    (ctrlStopEncoder s).capture = s.capture := by
  unfold ctrlStopEncoder
  match s with
  | ⟨cl, cap, none, bp⟩ => rfl
  | ⟨cl, cap, some e, bp⟩ => rfl

/-- C3: from the empty-client initial state, `attach c1` then `attach c2`
starts the capture exactly once; `detach c1` alone does not stop it (even
with an arbitrary encoder configured meanwhile); the subsequent `detach c2`
stops the capture and tears down the encoder; and both operations are
idempotent on the controller state for repeated calls with the same
client. -/
theorem attach_detach_lifecycle (c1 c2 : Nat) (hne : c1 ≠ c2)
    (e : Option (Nat × Nat)) (bp : Bool) :
    (attachClient c1 ctrlInit).2 = [CtrlEvent.startCapture] ∧
      (attachClient c2 (attachClient c1 ctrlInit).1).2 = [] ∧
      (detachClient c1
          { (attachClient c2 (attachClient c1 ctrlInit).1).1 with
              enc := e, backpressure := bp }).2 = [] ∧
      (detachClient c1
          { (attachClient c2 (attachClient c1 ctrlInit).1).1 with
              enc := e, backpressure := bp }).1.capture = true ∧
      (detachClient c2
          (detachClient c1
            { (attachClient c2 (attachClient c1 ctrlInit).1).1 with
                enc := e, backpressure := bp }).1).2
        = [CtrlEvent.stopCapture] ∧
      (detachClient c2
          (detachClient c1
            { (attachClient c2 (attachClient c1 ctrlInit).1).1 with
                enc := e, backpressure := bp }).1).1.capture = false ∧
      (detachClient c2
          (detachClient c1
            { (attachClient c2 (attachClient c1 ctrlInit).1).1 with
                enc := e, backpressure := bp }).1).1.enc = none ∧
      (∀ (c : Nat) (s : CtrlState),
        (attachClient c (attachClient c s).1).1 = (attachClient c s).1) ∧
      (∀ (c : Nat) (s : CtrlState),
        (detachClient c (detachClient c s).1).1 = (detachClient c s).1) := by
  have hstep1 : attachClient c1 ctrlInit
      = (⟨insert c1 ∅, true, none, false⟩, [CtrlEvent.startCapture]) := rfl
  have hstep2 : attachClient c2 (⟨insert c1 ∅, true, none, false⟩ : CtrlState)
      = (⟨insert c2 (insert c1 ∅), true, none, false⟩, []) := rfl
  have herase1 : (insert c2 (insert c1 (∅ : Finset Nat))).erase c1
      = insert c2 ∅ := by
    rw [Finset.Insert.comm]
    exact Finset.erase_insert (by simp [hne])
  have hne2 : insert c2 (∅ : Finset Nat) ≠ ∅ := by
    simp
  have hstep3 : detachClient c1
      ({ (⟨insert c2 (insert c1 ∅), true, none, false⟩ : CtrlState) with
          enc := e, backpressure := bp })
      = (⟨insert c2 ∅, true, e, bp⟩, []) := by
    unfold detachClient
    simp only [herase1]
    rw [if_neg hne2]
  have herase2 : (insert c2 (∅ : Finset Nat)).erase c2 = ∅ := by
    rw [Finset.erase_insert (Finset.not_mem_empty c2)]
  have hstep4 : detachClient c2 (⟨insert c2 ∅, true, e, bp⟩ : CtrlState)
      = (ctrlStopEncoder ⟨∅, false, e, bp⟩, [CtrlEvent.stopCapture]) := by
    unfold detachClient
    simp only [herase2, if_true]
    rfl
  rw [hstep1, hstep2]
  refine ⟨rfl, rfl, ?_, ?_, ?_, ?_, ?_, ?_, ?_⟩
  · rw [hstep3]
  · rw [hstep3]
  · rw [hstep3]
    simp only
    rw [hstep4]
  · rw [hstep3]
    simp only
    rw [hstep4]
    simp only
    rw [ctrlStopEncoder_capture]
  · rw [hstep3]
    simp only
    rw [hstep4]
    simp only
    rw [ctrlStopEncoder_enc]
  · -- attach is idempotent on the state
    intro c s
    obtain ⟨cl, cap, enc, sbp⟩ := s
    cases cap <;> simp [attachClient, Finset.insert_idem]
  · -- detach is idempotent on the state
    intro c s
    obtain ⟨cl, cap, enc, sbp⟩ := s
    by_cases hemp : cl.erase c = ∅
    · cases cap
      · -- capture already off: stopSharedCapture is a no-op both times
        simp [detachClient, stopSharedCapture, hemp, Finset.erase_empty]
      · -- first detach stops capture; second finds it already stopped
        cases enc <;>
          simp [detachClient, stopSharedCapture, ctrlStopEncoder, hemp,
            Finset.erase_empty]
    · have h2 : (cl.erase c).erase c = cl.erase c := by
        rw [Finset.erase_idem]
      simp [detachClient, hemp, h2]

/-- C3 witness: the lifecycle theorem at clients 1 and 2 with a configured
encoder in between. -/
theorem attach_detach_lifecycle_witness :
    (attachClient 1 ctrlInit).2 = [CtrlEvent.startCapture] ∧
      (attachClient 2 (attachClient 1 ctrlInit).1).2 = [] ∧
      (detachClient 1
          { (attachClient 2 (attachClient 1 ctrlInit).1).1 with
              enc := some (640, 480), backpressure := false }).2 = [] ∧
      (detachClient 1
          { (attachClient 2 (attachClient 1 ctrlInit).1).1 with
              enc := some (640, 480), backpressure := false }).1.capture = true ∧
      (detachClient 2
          (detachClient 1
            { (attachClient 2 (attachClient 1 ctrlInit).1).1 with
                enc := some (640, 480), backpressure := false }).1).2
        = [CtrlEvent.stopCapture] ∧
      (detachClient 2
          (detachClient 1
            { (attachClient 2 (attachClient 1 ctrlInit).1).1 with
                enc := some (640, 480), backpressure := false }).1).1.capture = false ∧
      (detachClient 2
          (detachClient 1
            { (attachClient 2 (attachClient 1 ctrlInit).1).1 with
                enc := some (640, 480), backpressure := false }).1).1.enc = none := by
  have h := attach_detach_lifecycle 1 2 (by decide) (some (640, 480)) false
  exact ⟨h.1, h.2.1, h.2.2.1, h.2.2.2.1, h.2.2.2.2.1, h.2.2.2.2.2.1,
    h.2.2.2.2.2.2.1⟩

/-- The `.catch` handler of `capture.start()` (src/examples/server_ws.js
lines 463-472): stop the shared capture, close every connected client, and
clear the client set.  Returns the new state and the set of clients that
were closed. -/
def onCaptureStartFailure (s : CtrlState) : CtrlState × Finset Nat :=
  let s1 := (stopSharedCapture s).1
  ({ s1 with clients := ∅ }, s1.clients)

/-- C9: if the capture source fails to start while a capture session is
active, every currently connected client is closed, the client set is
cleared, and both the capture session and any encoder instance are torn
down. -/
theorem captureStartFailure_fatal (s : CtrlState) (hcap : s.capture = true) :
    (onCaptureStartFailure s).1.clients = ∅ ∧
      (onCaptureStartFailure s).1.capture = false ∧
      (onCaptureStartFailure s).1.enc = none ∧
      (onCaptureStartFailure s).2 = s.clients := by
  have hstop : stopSharedCapture s
      = (ctrlStopEncoder { s with capture := false }, [CtrlEvent.stopCapture]) := by
    unfold stopSharedCapture
    rw [if_neg (by rw [hcap]; exact fun h => Bool.noConfusion h)]
  unfold onCaptureStartFailure
  rw [hstop]
  refine ⟨rfl, ?_, ?_, ?_⟩
  · simp only
    rw [ctrlStopEncoder_capture]
  · simp only
    rw [ctrlStopEncoder_enc]
  · simp only
    rw [ctrlStopEncoder_clients]

/-- C9 witness: the failure handler applied to a state with two connected
clients, an active capture and a configured encoder. -/
theorem captureStartFailure_fatal_witness :
    (onCaptureStartFailure ⟨{1, 2}, true, some (640, 480), true⟩).1.clients = ∅ ∧
      (onCaptureStartFailure ⟨{1, 2}, true, some (640, 480), true⟩).1.capture = false ∧
      (onCaptureStartFailure ⟨{1, 2}, true, some (640, 480), true⟩).1.enc = none ∧
      (onCaptureStartFailure ⟨{1, 2}, true, some (640, 480), true⟩).2 = {1, 2} :=
  captureStartFailure_fatal ⟨{1, 2}, true, some (640, 480), true⟩ rfl

/-! ## BroadcastFanout (`broadcastJpeg`, src/examples/server_ws.js
lines 361-369)

A connected client is `(id, readyState, bufferedAmount)`; `WebSocket.OPEN`
is `1` and the backpressure threshold is `2 * 1024 * 1024` bytes.  A
broadcast walks the client set in order and either sends the encoded frame
verbatim as one message or skips the client; the send list records the
`(client id, payload)` messages actually emitted. -/

structure Client where
  id : Nat
  readyState : Nat
  bufferedAmount : Nat
deriving DecidableEq

def WS_OPEN : Nat := 1

def BACKPRESSURE_LIMIT : Nat := 2 * 1024 * 1024

/-- Model of `broadcastJpeg(jpegBuffer)`: skip a client whose socket is not open,
skip a client whose buffered output exceeds the threshold, otherwise send
the already-encoded buffer as one binary message. -/
def broadcastJpeg {α : Type} (clients : List Client) (jpeg : α) :
    List (Nat × α) :=
  match clients with
  | [] => []
  | c :: rest =>
    if c.readyState ≠ WS_OPEN then broadcastJpeg rest jpeg
    else if BACKPRESSURE_LIMIT < c.bufferedAmount then broadcastJpeg rest jpeg
    else (c.id, jpeg) :: broadcastJpeg rest jpeg

/-- A client receives a broadcast iff its socket is open and its buffered
output does not exceed the threshold. -/
def eligible (c : Client) : Bool :=
  decide (c.readyState = WS_OPEN) && decide (c.bufferedAmount ≤ BACKPRESSURE_LIMIT)

/-- A sequence of broadcast ticks, each with the then-current client states
and the encoded frame produced at that tick. -/
def runBroadcast {α : Type} : List (List Client × α) → List (Nat × α)
  | [] => []
  | t :: ts => broadcastJpeg t.1 t.2 ++ runBroadcast ts

/-- The messages delivered to one client id, in order. -/
def deliveredTo {α : Type} (cid : Nat) (sends : List (Nat × α)) : List α :=
  sends.filterMap fun s => if s.1 = cid then some s.2 else none

def hasEligible (cid : Nat) (cls : List Client) : Bool :=
  cls.any fun c => (c.id == cid) && eligible c

theorem broadcastJpeg_eq_filter {α : Type} (jpeg : α) :
    ∀ clients : List Client,
      broadcastJpeg clients jpeg
        = (clients.filter eligible).map (fun c => (c.id, jpeg)) := by
  intro clients
  induction clients with
  | nil => rfl
  | cons c rest ih =>
    by_cases hopen : c.readyState = WS_OPEN
    · by_cases hbuf : BACKPRESSURE_LIMIT < c.bufferedAmount
      · have helig : eligible c = false := by
          simp [eligible, hopen, hbuf]
        simp [broadcastJpeg, hopen, hbuf, List.filter_cons, helig, ih]
      · have helig : eligible c = true := by
          simp [eligible, hopen]
          omega
        simp [broadcastJpeg, hopen, hbuf, List.filter_cons, helig, ih]
    · have helig : eligible c = false := by
        simp [eligible, hopen]
      simp [broadcastJpeg, hopen, List.filter_cons, helig, ih]

theorem deliveredTo_append {α : Type} (cid : Nat) (s1 s2 : List (Nat × α)) :
    deliveredTo cid (s1 ++ s2) = deliveredTo cid s1 ++ deliveredTo cid s2 := by
  simp [deliveredTo, List.filterMap_append]

theorem deliveredTo_none {α : Type} (cid : Nat) (jpeg : α) :
    ∀ cls : List Client, (∀ c ∈ cls, c.id ≠ cid) →
      deliveredTo cid (broadcastJpeg cls jpeg) = [] := by
  intro cls
  induction cls with
  | nil => intro _; rfl
  | cons c rest ih =>
    intro hall
    have hc : c.id ≠ cid := hall c (List.mem_cons_self c rest)
    have hrest := ih fun d hd => hall d (List.mem_cons_of_mem c hd)
    by_cases hopen : c.readyState = WS_OPEN
    · by_cases hbuf : BACKPRESSURE_LIMIT < c.bufferedAmount
      · simpa [broadcastJpeg, hopen, hbuf] using hrest
      · simpa [broadcastJpeg, hopen, hbuf, deliveredTo, hc] using hrest
    · simpa [broadcastJpeg, hopen] using hrest

theorem deliveredTo_broadcast {α : Type} (cid : Nat) (jpeg : α) :
    ∀ cls : List Client, (cls.map Client.id).Nodup →
      deliveredTo cid (broadcastJpeg cls jpeg)
        = if hasEligible cid cls then [jpeg] else [] := by
  intro cls
  induction cls with
  | nil => intro _; rfl
  | cons c rest ih =>
    intro hnd
    simp only [List.map_cons, List.nodup_cons] at hnd
    obtain ⟨hcid, hndrest⟩ := hnd
    by_cases hopen : c.readyState = WS_OPEN
    · by_cases hbuf : BACKPRESSURE_LIMIT < c.bufferedAmount
      · have helig : eligible c = false := by
          simp [eligible, hopen, hbuf]
        have := ih hndrest
        simp [broadcastJpeg, hopen, hbuf, hasEligible, helig, this]
      · have helig : eligible c = true := by
          simp [eligible, hopen]
          omega
        by_cases hme : c.id = cid
        · have hnone : deliveredTo cid (broadcastJpeg rest jpeg) = [] := by
            apply deliveredTo_none
            intro d hd hdc
            apply hcid
            rw [hme, ← hdc]
            exact List.mem_map_of_mem Client.id hd
          simp [broadcastJpeg, hopen, hbuf, deliveredTo, hme, hasEligible,
            helig] at hnone ⊢
          simpa [deliveredTo] using hnone
        · have := ih hndrest
          simp [broadcastJpeg, hopen, hbuf, deliveredTo, hme, hasEligible,
            helig] at this ⊢
          simpa [deliveredTo] using this
    · have helig : eligible c = false := by
        simp [eligible, hopen]
      have := ih hndrest
      simp [broadcastJpeg, hopen, hasEligible, helig, this]

/-- C4: (a) one broadcast sends the encoded frame verbatim exactly to the
clients that are open and under the buffered-bytes threshold, in client
order, and sends nothing to every other client; (b) across any sequence of
broadcast ticks, the messages a client receives are exactly the frames of
the ticks at which it was eligible — a frame skipped for a client is never
delivered to it later. -/
theorem broadcast_fanout_spec (α : Type) :
    (∀ (clients : List Client) (jpeg : α),
        broadcastJpeg clients jpeg
          = (clients.filter eligible).map (fun c => (c.id, jpeg))) ∧
      (∀ (ticks : List (List Client × α)) (cid : Nat),
        (∀ t ∈ ticks, (t.1.map Client.id).Nodup) →
          deliveredTo cid (runBroadcast ticks)
            = (ticks.filter (fun t => hasEligible cid t.1)).map Prod.snd) := by
  constructor
  · intro clients jpeg
    exact broadcastJpeg_eq_filter jpeg clients
  · intro ticks cid hnd
    induction ticks with
    | nil => rfl
    | cons t ts ih =>
      have hh := hnd t (List.mem_cons_self t ts)
      have ht := ih fun u hu => hnd u (List.mem_cons_of_mem t hu)
      show deliveredTo cid (broadcastJpeg t.1 t.2 ++ runBroadcast ts) = _
      rw [deliveredTo_append, deliveredTo_broadcast cid t.2 t.1 hh, ht]
      by_cases he : hasEligible cid t.1
      · simp [List.filter_cons, he]
      · simp [List.filter_cons, he]

/-- C4 witness: two ticks with two clients; client 2 is over the threshold
at the first tick and under it at the second, so it receives only the
second frame while client 1 receives both. -/
theorem broadcast_fanout_spec_witness :
    broadcastJpeg
        [⟨1, 1, 0⟩, ⟨2, 1, 3000000⟩] (7 : Nat)
      = [(1, 7)] ∧
      deliveredTo 2
          (runBroadcast
            [([⟨1, 1, 0⟩, ⟨2, 1, 3000000⟩], (7 : Nat)),
              ([⟨1, 1, 0⟩, ⟨2, 1, 100⟩], 8)])
        = [8] ∧
      deliveredTo 1
          (runBroadcast
            [([⟨1, 1, 0⟩, ⟨2, 1, 3000000⟩], (7 : Nat)),
              ([⟨1, 1, 0⟩, ⟨2, 1, 100⟩], 8)])
        = [7, 8] := by
  refine ⟨?_, ?_, ?_⟩
  · have h := (broadcast_fanout_spec Nat).1 [⟨1, 1, 0⟩, ⟨2, 1, 3000000⟩] 7
    rw [h]
    rfl
  · have h := (broadcast_fanout_spec Nat).2
      [([⟨1, 1, 0⟩, ⟨2, 1, 3000000⟩], 7), ([⟨1, 1, 0⟩, ⟨2, 1, 100⟩], 8)] 2
      (by decide)
    rw [h]
    rfl
  · have h := (broadcast_fanout_spec Nat).2
      [([⟨1, 1, 0⟩, ⟨2, 1, 3000000⟩], 7), ([⟨1, 1, 0⟩, ⟨2, 1, 100⟩], 8)] 1
      (by decide)
    rw [h]
    rfl

/-! ## NegotiationSession candidate handling (src/unnamed/part_001,
`socket.on('answer')` lines 390-404 and `socket.on('candidate')` lines
406-416)

A remote candidate is applied immediately (`pc.addIceCandidate`) when a
remote description is already set, and pushed onto `candidateQueue`
otherwise.  A remote answer received in the `have-local-offer` state sets
the remote description and then shifts the queue, applying each queued
candidate in arrival order.  `PCAction` is the trace of calls made on the
underlying peer connection. -/

inductive SigEvent where
  | remoteCandidate (c : Nat)
  | answer

inductive PCAction where
  | setRemoteDescription
  | addIceCandidate (c : Nat)
deriving DecidableEq

structure SigState where
  haveLocalOffer : Bool
  remoteDesc : Bool
  queue : List Nat
deriving DecidableEq

/-- Session state right after the local offer was sent: awaiting the
answer, no remote description, empty candidate queue. -/
def sigInit : SigState := ⟨true, false, []⟩

def sigStep (s : SigState) : SigEvent → SigState × List PCAction
  | .remoteCandidate c =>
    if s.remoteDesc then (s, [PCAction.addIceCandidate c])
    else ({ s with queue := s.queue ++ [c] }, [])
  | .answer =>
    if s.haveLocalOffer then
      (⟨false, true, []⟩,
        PCAction.setRemoteDescription :: s.queue.map PCAction.addIceCandidate)
    else (s, [])

def runSig (s : SigState) : List SigEvent → SigState × List PCAction
  | [] => (s, [])
  | e :: es =>
    let r := sigStep s e
    let r2 := runSig r.1 es
    (r2.1, r.2 ++ r2.2)

/-- The candidates applied to the peer connection, in order. -/
def candsOf : List PCAction → List Nat
  | [] => []
  | .setRemoteDescription :: t => candsOf t
  | .addIceCandidate c :: t => c :: candsOf t

/-- The remote candidates that arrived, in order. -/
def candArrivals : List SigEvent → List Nat
  | [] => []
  | .remoteCandidate c :: t => c :: candArrivals t
  | .answer :: t => candArrivals t

/-- Checks that no candidate is applied before the remote description is:
the flag records whether `setRemoteDescription` has occurred. -/
def candOrderOk : Bool → List PCAction → Bool
  | _, [] => true
  | _, .setRemoteDescription :: t => candOrderOk true t
  | seen, .addIceCandidate _ :: t => seen && candOrderOk seen t

def seenAfter : Bool → List PCAction → Bool
  | b, [] => b
  | _, .setRemoteDescription :: t => seenAfter true t
  | b, .addIceCandidate _ :: t => seenAfter b t

theorem candsOf_append (t1 : List PCAction) :
    ∀ t2, candsOf (t1 ++ t2) = candsOf t1 ++ candsOf t2 := by
  induction t1 with
  | nil => intro t2; rfl
  | cons a t ih =>
    intro t2
    cases a <;> simp [candsOf, ih]

theorem candOrderOk_append (t1 : List PCAction) :
    ∀ (b : Bool) (t2 : List PCAction),
      candOrderOk b (t1 ++ t2) = true ↔
        (candOrderOk b t1 = true ∧ candOrderOk (seenAfter b t1) t2 = true) := by
  induction t1 with
  | nil => intro b t2; simp [candOrderOk, seenAfter]
  | cons a t ih =>
    intro b t2
    cases a with
    | setRemoteDescription =>
      simp only [List.cons_append, candOrderOk, seenAfter]
      exact ih true t2
    | addIceCandidate c =>
      cases b with
      | false => simp [candOrderOk]
      | true =>
        simp only [List.cons_append, candOrderOk, seenAfter, Bool.true_and]
        exact ih true t2

theorem candsOf_map_addIce (q : List Nat) :
    candsOf (q.map PCAction.addIceCandidate) = q := by
  induction q with
  | nil => rfl
  | cons c t ih => simp [candsOf, ih]

theorem candOrderOk_true_flush (q : List Nat) :
    candOrderOk true (q.map PCAction.addIceCandidate) = true := by
  induction q with
  | nil => rfl
  | cons c t ih => simp [candOrderOk, ih]

/-- Reachable-state invariant: once the remote description is set the queue
is empty, and while the session still awaits the answer no remote
description is set. -/
def sigInv (s : SigState) : Prop :=
  (s.remoteDesc = true → s.queue = []) ∧
    (s.haveLocalOffer = true → s.remoteDesc = false)

theorem seenAfter_flush (q : List Nat) :
    ∀ b, seenAfter b (q.map PCAction.addIceCandidate) = b := by
  induction q with
  | nil => intro b; rfl
  | cons c t ih => intro b; simp [seenAfter, ih]

theorem runSig_spec :
    ∀ (evts : List SigEvent) (s : SigState), sigInv s →
      candsOf (runSig s evts).2 ++ (runSig s evts).1.queue
          = s.queue ++ candArrivals evts ∧
        candOrderOk s.remoteDesc (runSig s evts).2 = true ∧
        sigInv (runSig s evts).1 := by
  intro evts
  induction evts with
  | nil =>
    intro s hinv
    refine ⟨by simp [runSig, candsOf, candArrivals], ?_, hinv⟩
    cases s.remoteDesc <;> rfl
  | cons e es ih =>
    intro s hinv
    show candsOf ((sigStep s e).2 ++ (runSig (sigStep s e).1 es).2)
          ++ (runSig (sigStep s e).1 es).1.queue
        = s.queue ++ candArrivals (e :: es) ∧
      candOrderOk s.remoteDesc
          ((sigStep s e).2 ++ (runSig (sigStep s e).1 es).2) = true ∧
      sigInv (runSig (sigStep s e).1 es).1
    cases e with
    | remoteCandidate c =>
      cases hd : s.remoteDesc with
      | true =>
        have hq : s.queue = [] := hinv.1 hd
        have hstep : sigStep s (.remoteCandidate c)
            = (s, [PCAction.addIceCandidate c]) := by
          simp [sigStep, hd]
        have h1 : (sigStep s (.remoteCandidate c)).1 = s := by rw [hstep]
        have h2 : (sigStep s (.remoteCandidate c)).2
            = [PCAction.addIceCandidate c] := by rw [hstep]
        rw [h1, h2]
        obtain ⟨ha, hb, hc⟩ := ih s hinv
        have ha' : candsOf (runSig s es).2 ++ (runSig s es).1.queue
            = candArrivals es := by
          rw [ha, hq, List.nil_append]
        refine ⟨?_, ?_, hc⟩
        · rw [candsOf_append, hq, List.nil_append]
          simp only [candsOf, candArrivals, List.cons_append, List.nil_append,
            List.append_assoc]
          rw [ha']
        · rw [candOrderOk_append]
          refine ⟨rfl, ?_⟩
          show candOrderOk true (runSig s es).2 = true
          rw [hd] at hb
          exact hb
      | false =>
        have hstep : sigStep s (.remoteCandidate c)
            = ({ s with queue := s.queue ++ [c] }, []) := by
          simp [sigStep, hd]
        have h1 : (sigStep s (.remoteCandidate c)).1
            = { s with queue := s.queue ++ [c] } := by rw [hstep]
        have h2 : (sigStep s (.remoteCandidate c)).2 = [] := by rw [hstep]
        rw [h1, h2]
        have hinv1 : sigInv { s with queue := s.queue ++ [c] } := by
          constructor
          · intro h
            rw [show ({ s with queue := s.queue ++ [c] } : SigState).remoteDesc
                = s.remoteDesc from rfl, hd] at h
            exact absurd h (by simp)
          · intro _
            exact hd
        obtain ⟨ha, hb, hc⟩ := ih _ hinv1
        refine ⟨?_, ?_, hc⟩
        · rw [List.nil_append]
          calc candsOf (runSig { s with queue := s.queue ++ [c] } es).2
                ++ (runSig { s with queue := s.queue ++ [c] } es).1.queue
              = ({ s with queue := s.queue ++ [c] } : SigState).queue
                  ++ candArrivals es := ha
            _ = s.queue ++ candArrivals (.remoteCandidate c :: es) := by
                show (s.queue ++ [c]) ++ candArrivals es = _
                rw [List.append_assoc]
                simp [candArrivals]
        · rw [List.nil_append, show (false : Bool) = s.remoteDesc from hd.symm]
          exact hb
    | answer =>
      cases ho : s.haveLocalOffer with
      | true =>
        have hd' : s.remoteDesc = false := hinv.2 ho
        have hstep : sigStep s .answer
            = (⟨false, true, []⟩,
              PCAction.setRemoteDescription
                :: s.queue.map PCAction.addIceCandidate) := by
          simp [sigStep, ho]
        have h1 : (sigStep s .answer).1 = ⟨false, true, []⟩ := by rw [hstep]
        have h2 : (sigStep s .answer).2
            = PCAction.setRemoteDescription
              :: s.queue.map PCAction.addIceCandidate := by rw [hstep]
        rw [h1, h2]
        have hinv1 : sigInv ⟨false, true, []⟩ := by
          constructor
          · intro _
            rfl
          · intro h
            simp at h
        obtain ⟨ha, hb, hc⟩ := ih ⟨false, true, []⟩ hinv1
        have ha' : candsOf (runSig (⟨false, true, []⟩ : SigState) es).2
            ++ (runSig (⟨false, true, []⟩ : SigState) es).1.queue
            = candArrivals es := by
          simpa using ha
        refine ⟨?_, ?_, hc⟩
        · simp only [List.cons_append, candsOf, List.append_eq]
          rw [candsOf_append, candsOf_map_addIce, List.append_assoc, ha']
          simp [candArrivals]
        · rw [hd']
          simp only [List.cons_append, candOrderOk, List.append_eq]
          rw [candOrderOk_append]
          refine ⟨candOrderOk_true_flush _, ?_⟩
          rw [seenAfter_flush]
          exact hb
      | false =>
        have hstep : sigStep s .answer = (s, []) := by
          simp [sigStep, ho]
        have h1 : (sigStep s .answer).1 = s := by rw [hstep]
        have h2 : (sigStep s .answer).2 = [] := by rw [hstep]
        rw [h1, h2]
        obtain ⟨ha, hb, hc⟩ := ih s hinv
        refine ⟨?_, ?_, hc⟩
        · rw [List.nil_append, ha]
          simp [candArrivals]
        · rw [List.nil_append]
          exact hb

/-- C6: for every event sequence of a NegotiationSession (starting after
the local offer, with no remote description and an empty queue):
(a) the candidates applied to the peer connection, followed by the ones
still queued, are exactly the arrived candidates in original arrival
order — so queued candidates are flushed in arrival order and none is
lost or reordered; (b) no candidate is ever applied before the remote
description is applied; (c) once the remote description is set the queue
is empty (everything was flushed); and (d) a candidate arriving while a
remote description is set is applied immediately, in the same step. -/
theorem candidate_queue_spec :
    (∀ evts : List SigEvent,
        candsOf (runSig sigInit evts).2 ++ (runSig sigInit evts).1.queue
            = candArrivals evts ∧
          candOrderOk false (runSig sigInit evts).2 = true ∧
          ((runSig sigInit evts).1.remoteDesc = true →
            (runSig sigInit evts).1.queue = [])) ∧
      (∀ (s : SigState) (c : Nat), s.remoteDesc = true →
        sigStep s (.remoteCandidate c) = (s, [PCAction.addIceCandidate c])) := by
  constructor
  · intro evts
    have hinv : sigInv sigInit := by
      constructor
      · intro h
        simp [sigInit] at h
      · intro _
        rfl
    obtain ⟨ha, hb, hc⟩ := runSig_spec evts sigInit hinv
    exact ⟨by simpa [sigInit] using ha, hb, hc.1⟩
  · intro s c hs
    simp [sigStep, hs]

/-- C6 witness: candidates 5 and 7 arrive before the answer and are applied
in order right after the remote description; candidate 9 arrives after and
is applied immediately. -/
theorem candidate_queue_spec_witness :
    candsOf (runSig sigInit
          [.remoteCandidate 5, .remoteCandidate 7, .answer, .remoteCandidate 9]).2
        ++ (runSig sigInit
          [.remoteCandidate 5, .remoteCandidate 7, .answer, .remoteCandidate 9]).1.queue
      = [5, 7, 9] ∧
      candOrderOk false (runSig sigInit
          [.remoteCandidate 5, .remoteCandidate 7, .answer, .remoteCandidate 9]).2
        = true ∧
      sigStep ⟨false, true, []⟩ (.remoteCandidate 3)
        = (⟨false, true, []⟩, [PCAction.addIceCandidate 3]) :=
  ⟨(candidate_queue_spec.1
      [.remoteCandidate 5, .remoteCandidate 7, .answer, .remoteCandidate 9]).1,
    (candidate_queue_spec.1
      [.remoteCandidate 5, .remoteCandidate 7, .answer, .remoteCandidate 9]).2.1,
    candidate_queue_spec.2 ⟨false, true, []⟩ 3 rfl⟩

/-! ## SDP munging (`mungeSdp`, src/unnamed/part_001 lines 199-216)

The SDP text is split on `"\r\n"` into lines; lines are modelled as
`List Char` (the `data` of the corresponding `String`), which keeps every
operation kernel-computable.  `line.startsWith(p)` is prefix testing,
`lines.findIndex(...)` is `findIdx?` (the source compares with `-1`, i.e.
`none`), and `lines.splice(i + 1, 0, x)` is `insertIdx (i + 1) x`.  After
the splice, the source appends the three `x-google-*-bitrate` parameters to
**every** line of the whole SDP that starts with `a=fmtp`. -/

/-- The parameter text appended to an `a=fmtp` line. -/
def fmtpSuffix (b : Nat) : List Char :=
  ";x-google-min-bitrate=".data ++ Nat.toDigits 10 b
    ++ ";x-google-max-bitrate=".data ++ Nat.toDigits 10 b
    ++ ";x-google-start-bitrate=".data ++ Nat.toDigits 10 b

/-- Model of `line.startsWith(p)`. -/
def lineStartsWith (l p : List Char) : Bool := List.isPrefixOf p l

/-- Model of `mungeSdp(sdp, bitrate)` on the split lines: locate the first `m=video`
line; if present, splice a `b=AS:<bitrate>` line right after it and append
the bitrate parameters to every `a=fmtp` line of the array. -/
def mungeSdpLines (lines : List (List Char)) (b : Nat) : List (List Char) :=
  match lines.findIdx? (fun l => lineStartsWith l "m=video".data) with
  | none => lines
  | some i =>
    let lines2 := lines.insertIdx (i + 1) ("b=AS:".data ++ Nat.toDigits 10 b)
    lines2.map fun l =>
      if lineStartsWith l "a=fmtp".data then l ++ fmtpSuffix b else l

theorem map_insertIdx {α β : Type} (f : α → β) :
    ∀ (l : List α) (i : Nat) (x : α),
      (l.insertIdx i x).map f = (l.map f).insertIdx i (f x) := by
  intro l
  induction l with
  | nil =>
    intro i x
    match i with
    | 0 => rfl
    | i + 1 => rfl
  | cons a t ih =>
    intro i x
    match i with
    | 0 => rfl
    | i + 1 =>
      rw [List.insertIdx_succ_cons, List.map_cons, ih, List.map_cons,
        List.insertIdx_succ_cons]

/-- C7 (amended): when no `m=video` line exists the SDP is unchanged; when
the first `m=video` line is at index `i`, the rewrite appends the
min/max/start bitrate parameters to **every** `a=fmtp` line of the whole
SDP — not only those of the video section — and inserts the `b=AS`
bandwidth line immediately after the `m=video` line. -/
theorem mungeSdp_spec :
    (∀ (lines : List (List Char)) (b : Nat),
        lines.findIdx? (fun l => lineStartsWith l "m=video".data) = none →
          mungeSdpLines lines b = lines) ∧
      (∀ (lines : List (List Char)) (b : Nat) (i : Nat),
        lines.findIdx? (fun l => lineStartsWith l "m=video".data) = some i →
          mungeSdpLines lines b
            = (lines.map fun l =>
                if lineStartsWith l "a=fmtp".data then l ++ fmtpSuffix b else l
              ).insertIdx (i + 1) ("b=AS:".data ++ Nat.toDigits 10 b)) := by
  constructor
  · intro lines b h
    simp [mungeSdpLines, h]
  · intro lines b i h
    simp only [mungeSdpLines, h]
    rw [map_insertIdx]
    have hbas : lineStartsWith ("b=AS:".data ++ Nat.toDigits 10 b)
        "a=fmtp".data = false := rfl
    rw [hbas]
    simp

/-- C7 counterexample to the claim as stated: on an SDP whose audio section
(`m=audio`, before `m=video`) carries its own `a=fmtp:111` line, the
rewrite appends the bitrate parameters to that audio `a=fmtp` line as well
(line index 2 of the result), so format-parameter lines of other media
sections are **not** left unchanged. -/
theorem mungeSdp_touches_other_sections :
    mungeSdpLines ["v=0".data, "m=audio 9 X".data, "a=fmtp:111 k=1".data,
        "m=video 9 Y".data, "a=fmtp:96 z".data] 15000
      = ["v=0".data, "m=audio 9 X".data,
        ("a=fmtp:111 k=1".data ++ fmtpSuffix 15000),
        "m=video 9 Y".data, ("b=AS:".data ++ Nat.toDigits 10 15000),
        ("a=fmtp:96 z".data ++ fmtpSuffix 15000)] ∧
      "a=fmtp:111 k=1".data ++ fmtpSuffix 15000 ≠ "a=fmtp:111 k=1".data := by
  constructor
  · decide
  · decide

/-- C7 witness: the amended characterization applied to a concrete SDP
(video section present, first `m=video` line at index 3) and to a concrete
SDP with no video section. -/
theorem mungeSdp_spec_witness :
    mungeSdpLines ["v=0".data, "m=audio 9 X".data, "a=fmtp:111 k=1".data,
          "m=video 9 Y".data, "a=fmtp:96 z".data] 15000
        = ((["v=0".data, "m=audio 9 X".data, "a=fmtp:111 k=1".data,
            "m=video 9 Y".data, "a=fmtp:96 z".data].map fun l =>
              if lineStartsWith l "a=fmtp".data then l ++ fmtpSuffix 15000 else l
          ).insertIdx 4 ("b=AS:".data ++ Nat.toDigits 10 15000)) ∧
      mungeSdpLines ["v=0".data, "m=audio 9 X".data, "a=fmtp:111 k=1".data] 15000
        = ["v=0".data, "m=audio 9 X".data, "a=fmtp:111 k=1".data] :=
  ⟨mungeSdp_spec.2 _ 15000 3 (by decide),
    mungeSdp_spec.1 _ 15000 (by decide)⟩

end RsCapture
